import Mathlib

/-!
# Verification of the `FileCacheImpl` pin-based file cache

Shallow embedding of `src/file_cache_impl.cc` / `src/file_cache_impl.h`.

* The C++ `std::map<std::string, CacheEntry> file_cache_` is modelled as an
  association list kept in ascending key order (std::map iteration order),
  `CacheTable`.
* The POSIX layer (`open`/`read`/`write`/`close`) is modelled by an explicit
  `Sys` state carrying the on-disk files plus failure-injection oracles for
  the three fallible syscalls; flushes and closes are additionally recorded
  in an `Event` trace so that theorems can speak about the I/O the cache
  performs.
* `pin_count_` is a `uint32_t`; increments and decrements are taken
  modulo `2^32` (`U32`).
* The condition-variable wait inside `PinFiles` is the sole blocking point;
  in this sequential embedding a call that reaches `cv_.wait` with no
  evictable entry is observed exactly at that (lock-released) point: the
  function returns the state it holds there, with the still-unresolved
  names.  The outer eviction loop is driven by explicit fuel.
-/

set_option linter.unusedVariables false

namespace FileCache

/-- The constant `FILE_SIZE` (10240) from file_cache_impl.h. -/
def FILE_SIZE : Nat := 10240

/-- Modulus of the 32-bit unsigned `pin_count_` field. -/
def U32 : Nat := 4294967296

/-- Models `FileCacheImpl::CacheEntry`: shared buffer, `uint32_t pin_count_`,
`bool dirty_`, file descriptor `int fd_`. -/
structure CacheEntry where
  file_buf : List Nat
  pin_count : Nat
  dirty : Bool
  fd : Nat
  deriving DecidableEq, Repr

/-- Models `std::map<std::string, CacheEntry> file_cache_`, in ascending key order. -/
abbrev CacheTable := List (String × CacheEntry)

/-- Models `file_cache_.find(k)` (the entry whose key is `k`, if any). -/
def tableFind (k : String) : CacheTable → Option CacheEntry
  | [] => none
  | (q, e) :: rest => if k = q then some e else tableFind k rest

/-- Models `file_cache_.insert(make_pair(k, e))`: ordered insert; like
`std::map::insert` it does NOT overwrite an existing key. -/
def tableInsert (k : String) (e : CacheEntry) : CacheTable → CacheTable
  | [] => [(k, e)]
  | (q, x) :: rest =>
    if k < q then (k, e) :: (q, x) :: rest
    else if k = q then (q, x) :: rest
    else (q, x) :: tableInsert k e rest

/-- In-place mutation of the entry at key `k` through a map iterator. -/
def tableUpdate (k : String) (f : CacheEntry → CacheEntry) : CacheTable → CacheTable
  | [] => []
  | (q, x) :: rest =>
    if k = q then (q, f x) :: rest
    else (q, x) :: tableUpdate k f rest

/-- The keys currently resident in the cache table. -/
def tableKeys (t : CacheTable) : List String := t.map Prod.fst

/-- The modelled POSIX layer: on-disk file contents, failure-injection
oracles for `open`, `read` and `write`, and a fresh-fd counter. -/
structure Sys where
  disk : List (String × List Nat)
  openFail : String → Bool
  readFail : String → Bool
  writeFail : String → Bool
  nextFd : Nat

/-- Look up a file's on-disk contents. -/
def diskFind (k : String) : List (String × List Nat) → Option (List Nat)
  | [] => none
  | (q, v) :: rest => if k = q then some v else diskFind k rest

/-- Overwrite (or create) a file's on-disk contents. -/
def diskSet (k : String) (v : List Nat) : List (String × List Nat) → List (String × List Nat)
  | [] => [(k, v)]
  | (q, w) :: rest => if k = q then (k, v) :: rest else (q, w) :: diskSet k v rest

/-- Observable syscall events of the flush/close paths. -/
inductive Event where
  | writeEv (name : String) (bytes : List Nat) (ok : Bool)
  | closeEv (fd : Nat)
  deriving DecidableEq, Repr

/-- Models `::lseek(fd, 0, SEEK_SET); ::write(fd, buf, FILE_SIZE)` on the file
backing `name`: on success the whole buffer lands on disk, on failure
(`nbytes < 0`) the error is logged and the disk is unchanged. -/
def flushWrite (s : Sys) (name : String) (buf : List Nat) : Sys × Event :=
  if s.writeFail name then (s, Event.writeEv name buf false)
  else ({ s with disk := diskSet name buf s.disk }, Event.writeEv name buf true)

/-- Models `FileCacheImpl::CacheEntry::~CacheEntry()` (file_cache_impl.cc:239-261):
only when `pin_count_ == 0` does it flush-if-dirty and close the fd;
a destructor run on an entry with a positive pin count does nothing. -/
def destructEntry (s : Sys) (name : String) (e : CacheEntry) : Sys × List Event :=
  if e.pin_count = 0 then
    if e.dirty then
      let w := flushWrite s name e.file_buf
      (w.1, [w.2, Event.closeEv e.fd])
    else (s, [Event.closeEv e.fd])
  else (s, [])

/-- Result of `evict_cache_entries`: final syscall state, remaining table,
the returned eviction count (an `int` in the source), and the I/O trace. -/
structure EvictRes where
  s : Sys
  t : CacheTable
  count : Int
  evs : List Event

/-- Processing of one unpinned victim inside `evict_cache_entries`: the
eviction loop's own flush when the entry is dirty (the flag is NOT
cleared), followed by the map erase, `file_cache_.erase(fitr++)`, which
runs `~CacheEntry` on the stored entry. -/
def evictSeg (s : Sys) (name : String) (e : CacheEntry) : Sys × List Event :=
  let p1 :=
    if e.dirty then
      let w := flushWrite s name e.file_buf
      (w.1, [w.2])
    else (s, ([] : List Event))
  let p2 := destructEntry p1.1 name e
  (p2.1, p1.2 ++ p2.2)

/-- The loop body of `FileCacheImpl::evict_cache_entries`
(file_cache_impl.cc:67-102): walk the map in key order; an entry with
`pin_count_ == 0` is flushed-if-dirty and erased (`evictSeg`); the loop
breaks once `cache_entries_evicted == num_cache_entries`. -/
def evict_go (num : Int) : Sys → Int → CacheTable → EvictRes
  | s, acc, [] => ⟨s, [], acc, []⟩
  | s, acc, (name, e) :: rest =>
    if e.pin_count = 0 then
      let p := evictSeg s name e
      if acc + 1 = num then ⟨p.1, rest, acc + 1, p.2⟩
      else
        let r := evict_go num p.1 (acc + 1) rest
        ⟨r.s, r.t, r.count, p.2 ++ r.evs⟩
    else
      let r := evict_go num s acc rest
      ⟨r.s, (name, e) :: r.t, r.count, r.evs⟩

/-- Models `FileCacheImpl::evict_cache_entries(num_cache_entries)`. -/
def evict_cache_entries (s : Sys) (num : Int) (t : CacheTable) : EvictRes :=
  evict_go num s 0 t

/-- Result of `add_cache_entry`: syscall state and cache table. -/
structure AddRes where
  s : Sys
  t : CacheTable

/-- Models `FileCacheImpl::add_cache_entry(file_name)` (file_cache_impl.cc:107-137):
`::open(name, O_RDWR | O_CREAT, 0777)` (creates an EMPTY file when absent);
on open failure log and return.  Otherwise allocate a FILE_SIZE buffer,
`memset(buf, Char48, FILE_SIZE)` — the character literal zero, byte 48, not
the zero byte — then `::read` the file; a negative read logs, closes the fd
and returns without inserting; any `nbytes >= 0` (including a short read)
leaves the tail of the buffer as byte 48 and inserts a
`CacheEntry(buf, 1, fd)`. -/
def add_cache_entry (s : Sys) (t : CacheTable) (name : String) : AddRes :=
  if s.openFail name then ⟨s, t⟩
  else
    let contents := (diskFind name s.disk).getD []
    let disk1 :=
      match diskFind name s.disk with
      | some _ => s.disk
      | none => diskSet name [] s.disk
    let fd := s.nextFd
    let s1 := { s with disk := disk1, nextFd := fd + 1 }
    if s.readFail name then ⟨s1, t⟩
    else
      let n := min contents.length FILE_SIZE
      let buf := contents.take FILE_SIZE ++ List.replicate (FILE_SIZE - n) 48
      ⟨s1, tableInsert name (CacheEntry.mk buf 1 false fd) t⟩

/-- Result of `fill_up_cache`: syscall state, table, and the names left in
`files_not_pinned`. -/
structure FillRes where
  s : Sys
  t : CacheTable
  fnp : List String

/-- The loop of `FileCacheImpl::fill_up_cache` (file_cache_impl.cc:144-160):
while names remain and the `empty_cache_entries` counter is positive,
call `add_cache_entry` on the next name, decrement the counter (whether or
not the entry was inserted) and erase the name from the set. -/
def fill_go : Sys → CacheTable → Int → List String → FillRes
  | s, t, _, [] => ⟨s, t, []⟩
  | s, t, empty, name :: rest =>
    if 0 < empty then
      let a := add_cache_entry s t name
      fill_go a.s a.t (empty - 1) rest
    else ⟨s, t, name :: rest⟩

/-- Models `FileCacheImpl::fill_up_cache(files_not_pinned)`: the counter is
initialised once, `int empty_cache_entries = max_cache_entries_ -
file_cache_.size()`. -/
def fill_up_cache (s : Sys) (max : Int) (t : CacheTable) (fnp : List String) : FillRes :=
  fill_go s t (max - t.length) fnp

/-- Decrement of the `uint32_t` field `pin_count_`. -/
def pinDec (p : Nat) : Nat := (p + U32 - 1) % U32

/-- Increment of the `uint32_t` field `pin_count_`. -/
def pinInc (p : Nat) : Nat := (p + 1) % U32

/-- Result of `UnpinFiles`: table, and whether `cv_.notify_all()` ran. -/
structure UnpinRes where
  t : CacheTable
  notify : Bool

/-- The loop of `FileCacheImpl::UnpinFiles` (file_cache_impl.cc:217-236):
for each name of the vector found in the table decrement its pin count;
remember whether some decrement produced the value zero. -/
def unpin_go : CacheTable → Bool → List String → UnpinRes
  | t, flag, [] => ⟨t, flag⟩
  | t, flag, name :: rest =>
    match tableFind name t with
    | none => unpin_go t flag rest
    | some e =>
      unpin_go (tableUpdate name (fun x => { x with pin_count := pinDec x.pin_count }) t)
        (flag || decide (pinDec e.pin_count = 0)) rest

/-- Models `FileCacheImpl::UnpinFiles(file_vec)`; `notify = true` means the final
`cv_.notify_all()` broadcast was issued. -/
def UnpinFiles (t : CacheTable) (vec : List String) : UnpinRes :=
  unpin_go t false vec

/-- Models `FileCacheImpl::FileData(file_name)` (file_cache_impl.cc:39-47): the
buffer of the resident entry, `nullptr` (`none`) otherwise. -/
def FileData (t : CacheTable) (name : String) : Option (List Nat) :=
  (tableFind name t).map CacheEntry.file_buf

/-- Result of `MutableFileData`: updated table and returned pointer. -/
structure MutRes where
  t : CacheTable
  buf : Option (List Nat)

/-- Models `FileCacheImpl::MutableFileData(file_name)` (file_cache_impl.cc:49-61):
marks the resident entry dirty and hands out its buffer. -/
def MutableFileData (t : CacheTable) (name : String) : MutRes :=
  match tableFind name t with
  | none => ⟨t, none⟩
  | some e => ⟨tableUpdate name (fun x => { x with dirty := true }) t, some e.file_buf⟩

/-- The implicit `int` → `size_t` conversion in
`file_vec.size() > max_cache_entries_`. -/
def toSizeT (m : Int) : Nat := (m % ((2 : Int) ^ 64)).toNat

/-- Models `std::set<std::string>::insert`: ordered, duplicate-free. -/
def setInsert (x : String) : List String → List String
  | [] => [x]
  | y :: ys => if x < y then x :: y :: ys else if x = y then y :: ys else y :: setInsert x ys

/-- Intermediate result of the resident-name passes of `PinFiles`. -/
structure FastRes where
  t : CacheTable
  fnp : List String

/-- The first loop of `FileCacheImpl::PinFiles` (file_cache_impl.cc:174-182):
walk `file_vec` in order; a resident name gets `pin_count_++`, an absent one
goes into the `files_not_pinned` set. -/
def fastPath : CacheTable → List String → List String → FastRes
  | t, fnp, [] => ⟨t, fnp⟩
  | t, fnp, name :: rest =>
    match tableFind name t with
    | some _ =>
      fastPath (tableUpdate name (fun e => { e with pin_count := pinInc e.pin_count }) t) fnp rest
    | none => fastPath t (setInsert name fnp) rest

/-- Models `FileCacheImpl::cache_entries_evictable()` (file_cache_impl.h): some
entry has `pin_count_ == 0`. -/
def evictableB (t : CacheTable) : Bool :=
  t.any fun p => p.2.pin_count == 0

/-- The re-check loop inside `PinFiles`' eviction-wait phase
(file_cache_impl.cc:195-204): a name of `files_not_pinned` that became
resident while blocked is claimed (`pin_count_++`) and erased from the set. -/
def claim_go : CacheTable → List String → FastRes
  | t, [] => ⟨t, []⟩
  | t, name :: rest =>
    match tableFind name t with
    | some _ =>
      claim_go (tableUpdate name (fun e => { e with pin_count := pinInc e.pin_count }) t) rest
    | none =>
      let r := claim_go t rest
      ⟨r.t, name :: r.fnp⟩

/-- The outer `while (!files_not_pinned.empty())` loop of `PinFiles`
(file_cache_impl.cc:190-215), fuelled.  Reaching `cv_.wait` with no
evictable entry returns the state held at that lock-released point
together with the still-unresolved names (sequential observation of the
blocked call). -/
def pinRounds (max : Int) : Nat → Sys → CacheTable → List String → Sys × CacheTable × List String
  | 0, s, t, fnp => (s, t, fnp)
  | fuel + 1, s, t, fnp =>
    if fnp.isEmpty then (s, t, fnp)
    else if !evictableB t then (s, t, fnp)
    else
      let c := claim_go t fnp
      if c.fnp.isEmpty then (s, c.t, [])
      else
        let ev := evict_cache_entries s (c.fnp.length : Int) c.t
        let f := fill_up_cache ev.s max ev.t c.fnp
        pinRounds max fuel f.s f.t f.fnp

/-- Result of `PinFiles`: whether the `std::runtime_error` was thrown, the
state, and the unresolved names at the point the call finished or blocked. -/
structure PinRes where
  thrown : Bool
  s : Sys
  t : CacheTable
  unresolved : List String

/-- Models `FileCacheImpl::PinFiles(file_vec)` (file_cache_impl.cc:162-215):
guard `file_vec.size() > max_cache_entries_` throws (the `int` capacity is
converted to `size_t` by the comparison); then the resident fast path,
one `fill_up_cache` pass, and the fuelled eviction-wait loop. -/
def PinFiles (fuel : Nat) (max : Int) (s : Sys) (t : CacheTable) (file_vec : List String) :
    PinRes :=
  if toSizeT max < file_vec.length then ⟨true, s, t, []⟩
  else
    let fp := fastPath t [] file_vec
    let fl := fill_up_cache s max fp.t fp.fnp
    if fl.fnp.isEmpty then ⟨false, fl.s, fl.t, []⟩
    else
      let r := pinRounds max fuel fl.s fl.t fl.fnp
      ⟨false, r.1, r.2.1, r.2.2⟩

/-- Destruction of `file_cache_` at cache shutdown: `~CacheEntry` runs on
every remaining entry. -/
def destroyCache : Sys → CacheTable → Sys × List Event
  | s, [] => (s, [])
  | s, (name, e) :: rest =>
    let p := destructEntry s name e
    let r := destroyCache p.1 rest
    (r.1, p.2 ++ r.2)

/-- One client-visible operation of the `FileCache` interface. -/
inductive Op where
  | pin (fuel : Nat) (names : List String)
  | unpin (names : List String)
  | fileData (name : String)
  | mutableFileData (name : String)

/-- Run one operation against the cache state (lock held for its whole
duration except at the modelled wait point of `pin`). -/
def stepOp (max : Int) (st : Sys × CacheTable) : Op → Sys × CacheTable
  | Op.pin fuel names =>
    let r := PinFiles fuel max st.1 st.2 names
    (r.s, r.t)
  | Op.unpin names => (st.1, (UnpinFiles st.2 names).t)
  | Op.fileData _ => st
  | Op.mutableFileData name => (st.1, (MutableFileData st.2 name).t)

/-- Run a sequence of operations starting from the empty cache. -/
def runOps (max : Int) (s0 : Sys) (ops : List Op) : Sys × CacheTable :=
  ops.foldl (stepOp max) (s0, [])

/-- The `UnpinFiles` precondition of the interface contract: no decrement is
ever applied to an entry whose pin count is already zero (and pin counts fit
in `uint32_t`), checked along the very fold `UnpinFiles` performs. -/
def noOverUnpinB : CacheTable → List String → Bool
  | _, [] => true
  | t, name :: rest =>
    match tableFind name t with
    | none => noOverUnpinB t rest
    | some e =>
      decide (1 ≤ e.pin_count) && decide (e.pin_count < U32) &&
        noOverUnpinB (tableUpdate name (fun x => { x with pin_count := pinDec x.pin_count }) t) rest

/-- A syscall state with empty disk and no injected failures. -/
def sysNoFail : Sys :=
  ⟨[], fun _ => false, fun _ => false, fun _ => false, 0⟩

/-- Concrete file names used in counterexamples and witnesses. -/
def fA : String := "a"

/-- Second concrete file name. -/
def fB : String := "b"

/-- Third concrete file name. -/
def fC : String := "c"

/-- Fourth concrete file name. -/
def fD : String := "d"

/-- A file name that does not exist on the (empty) modelled disk. -/
def fNew : String := "file1"

/-- A syscall state where opening `fA` fails. -/
def sysOpenFailA : Sys :=
  { sysNoFail with openFail := fun n => n == fA }

/-- A syscall state where writing to the file backing `fD` fails. -/
def sysWriteFailD : Sys :=
  { sysNoFail with writeFail := fun n => n == fD }

/-! ## Basic lemmas about the table operations -/

theorem tableInsert_length_le (k : String) (e : CacheEntry) :
    ∀ t : CacheTable, (tableInsert k e t).length ≤ t.length + 1 := by
  intro t
  induction t with
  | nil => simp [tableInsert]
  | cons hd rest ih =>
    obtain ⟨q, x⟩ := hd
    simp only [tableInsert]
    by_cases h1 : k < q
    · simp [h1]
    · by_cases h2 : k = q
      · simp [h1, h2]
      · simp only [if_neg h1, if_neg h2, List.length_cons]
        omega

theorem tableUpdate_length (k : String) (f : CacheEntry → CacheEntry) :
    ∀ t : CacheTable, (tableUpdate k f t).length = t.length := by
  intro t
  induction t with
  | nil => rfl
  | cons hd rest ih =>
    obtain ⟨q, x⟩ := hd
    simp only [tableUpdate]
    by_cases h : k = q <;> simp [h, ih]

theorem find_update_self (k : String) (f : CacheEntry → CacheEntry) :
    ∀ t : CacheTable, tableFind k (tableUpdate k f t) = (tableFind k t).map f := by
  intro t
  induction t with
  | nil => rfl
  | cons hd rest ih =>
    obtain ⟨q, x⟩ := hd
    simp only [tableUpdate]
    by_cases h : k = q
    · simp [tableFind, h]
    · simp [tableFind, h, ih]

theorem find_update_ne (k m : String) (f : CacheEntry → CacheEntry) (hne : m ≠ k) :
    ∀ t : CacheTable, tableFind m (tableUpdate k f t) = tableFind m t := by
  intro t
  induction t with
  | nil => rfl
  | cons hd rest ih =>
    obtain ⟨q, x⟩ := hd
    simp only [tableUpdate]
    by_cases h : k = q
    · subst h
      simp [tableFind, hne, if_neg hne]
    · rw [if_neg h]
      by_cases h2 : m = q <;> simp [tableFind, h2, ih]

/-! ## C3: creation of an absent file -/

/-- C3: for a file name absent from storage, `add_cache_entry` inserts a
resident entry whose buffer is FILE_SIZE copies of BYTE 48 (the character
literal zero of `memset(buf.get(), Char48, FILE_SIZE)`), not of the zero
byte, and the file created on disk by `O_CREAT` is EMPTY, not a zero-filled
FILE_SIZE-byte file.  This contradicts the claim (and the contract stated in
file_cache.h, which demands a 10KB zero-filled file), so the claim is
recorded as a code bug; this theorem evaluates the code at the failing
input. -/
theorem create_fills_buffer_with_ascii_zero :
    tableFind fNew (add_cache_entry sysNoFail [] fNew).t =
      some (CacheEntry.mk (List.replicate FILE_SIZE 48) 1 false 0) ∧
    diskFind fNew (add_cache_entry sysNoFail [] fNew).s.disk = some ([] : List Nat) ∧
    List.replicate FILE_SIZE 48 ≠ List.replicate FILE_SIZE 0 ∧
    ([] : List Nat).length ≠ FILE_SIZE := by
  refine ⟨?_, ?_, ?_, ?_⟩
  · simp [add_cache_entry, sysNoFail, diskFind, diskSet, tableInsert, tableFind]
  · simp [add_cache_entry, sysNoFail, diskFind, diskSet]
  · intro h
    have h48 : (48 : Nat) = 0 :=
      List.replicate_right_injective (by norm_num [FILE_SIZE]) h
    norm_num at h48
  · norm_num [FILE_SIZE]

/-! ## C4: destructor behaviour at shutdown -/

/-- A dirty entry that is still pinned at shutdown. -/
def entryPinnedDirty : CacheEntry := CacheEntry.mk [1] 1 true 7

/-- A dirty entry that is unpinned at shutdown. -/
def entryUnpinnedDirty : CacheEntry := CacheEntry.mk [1] 0 true 7

/-- C4: destroying the cache runs `~CacheEntry` on every remaining entry,
but the destructor flushes (and closes) ONLY when `pin_count_ == 0`: a dirty
entry whose pin count is still positive at destruction is silently dropped
with no write and no close, contradicting the claim (and the `FileCache`
interface comment, which promises that the destructor flushes all dirty
buffers).  Recorded as a code bug; this theorem evaluates the code at the
failing input and contrasts it with the unpinned case that does flush. -/
theorem destructor_skips_pinned_dirty :
    (destroyCache sysNoFail [(fNew, entryPinnedDirty)]).2 = [] ∧
    (destroyCache sysNoFail [(fNew, entryUnpinnedDirty)]).2 =
      [Event.writeEv fNew [1] true, Event.closeEv 7] := by
  constructor <;> rfl

/-! ## C5: failure conditions of entry creation -/

/-- C5 counterexample: on the first pin of an absent file the `::read` call
returns 0 bytes — fewer than FILE_SIZE — yet `add_cache_entry` inserts an
entry anyway: the source only treats `nbytes < 0` as a failure, so a partial
read is not a failure and the claim as stated is false. -/
theorem partial_read_inserts_entry :
    ((diskFind fNew sysNoFail.disk).getD []).length < FILE_SIZE ∧
    tableFind fNew (add_cache_entry sysNoFail [] fNew).t ≠ none := by
  constructor
  · norm_num [diskFind, sysNoFail, FILE_SIZE]
  · simp [add_cache_entry, sysNoFail, diskFind, diskSet, tableInsert, tableFind]

/-- C5 amended: entry creation fails exactly on a storage open failure or a
NEGATIVE read result, and on such a failure no entry is inserted — the cache
table is left unchanged.  (A short non-negative read is accepted and the
entry is inserted with byte-48 padding.) -/
theorem create_fails_only_open_or_negative_read (s : Sys) (t : CacheTable) (name : String)
    (h : s.openFail name = true ∨ s.readFail name = true) :
    (add_cache_entry s t name).t = t := by
  unfold add_cache_entry
  rcases h with h | h
  · simp [h]
  · by_cases ho : s.openFail name <;> simp [h, ho]

/-- Witness for the amended C5 theorem at a concrete input. -/
theorem create_fails_only_open_or_negative_read_witness :
    (sysOpenFailA.openFail fA = true ∨ sysOpenFailA.readFail fA = true) ∧
    (add_cache_entry sysOpenFailA [] fA).t = [] :=
  ⟨Or.inl (by decide),
    create_fails_only_open_or_negative_read sysOpenFailA [] fA (Or.inl (by decide))⟩

/-! ## C6: the fill phase budget -/

/-- An entry that keeps one slot of the table occupied and pinned. -/
def entryC : CacheEntry := CacheEntry.mk [] 1 false 9

/-- A table holding the single pinned entry `entryC` under key `fC`. -/
def tOne : CacheTable := [(fC, entryC)]

/-- C6 counterexample: capacity 2, table size 1, unresolved names `fA, fB`,
and creating `fA` fails.  The fill loop decrements its
`empty_cache_entries` counter even for the failed create, so it stops with
`fB` still unresolved and never attempted (table unchanged) although the
free capacity `max_entries - table.size() = 1` is still positive — the
claimed loop condition (recomputed free capacity) is not what the code
does. -/
theorem fill_stops_despite_free_capacity :
    (fill_up_cache sysOpenFailA 2 tOne [fA, fB]).fnp = [fB] ∧
    (fill_up_cache sysOpenFailA 2 tOne [fA, fB]).t = tOne ∧
    (0 : Int) < 2 - ((fill_up_cache sysOpenFailA 2 tOne [fA, fB]).t.length : Int) := by
  refine ⟨by decide, by decide, by decide⟩

/-- The fill loop consumes exactly the prefix of the unresolved set allowed
by its initial counter, one name per iteration, whatever the create
outcomes. -/
theorem fill_go_fnp :
    ∀ (fnp : List String) (s : Sys) (t : CacheTable) (empty : Int),
      (fill_go s t empty fnp).fnp = fnp.drop empty.toNat
  | [], s, t, empty => by simp [fill_go]
  | name :: rest, s, t, empty => by
    unfold fill_go
    by_cases h : 0 < empty
    · rw [if_pos h, fill_go_fnp rest _ _ (empty - 1)]
      have h2 : empty.toNat = (empty - 1).toNat + 1 := by omega
      rw [h2, List.drop_succ_cons]
    · rw [if_neg h]
      have h2 : empty.toNat = 0 := by omega
      simp [h2]

/-- C6 amended: the fill phase runs on a free-slot budget fixed at entry to
`fill_up_cache` (`max_entries - table.size()`), consuming — and thereby
attempting — exactly one unresolved name per budget unit regardless of
whether each create succeeded or failed (a failed name is dropped with the
error only logged to stderr, not reported to the caller); the names beyond
the budget are left unresolved for the eviction-wait loop. -/
theorem fill_budget_drop (s : Sys) (max : Int) (t : CacheTable) (fnp : List String) :
    (fill_up_cache s max t fnp).fnp = fnp.drop (max - (t.length : Int)).toNat :=
  fill_go_fnp fnp s t (max - (t.length : Int))

/-! ## Lemmas about flushes, destruction and eviction -/

theorem flushWrite_snd (s : Sys) (n : String) (b : List Nat) :
    (flushWrite s n b).2 = Event.writeEv n b (!s.writeFail n) := by
  unfold flushWrite
  by_cases h : s.writeFail n <;> simp [h]

theorem flushWrite_fst_writeFail (s : Sys) (n : String) (b : List Nat) :
    (flushWrite s n b).1.writeFail = s.writeFail := by
  unfold flushWrite
  by_cases h : s.writeFail n <;> simp [h]

theorem destructEntry_evs_dirty (s : Sys) (n : String) (e : CacheEntry)
    (h0 : e.pin_count = 0) (hd : e.dirty = true) :
    (destructEntry s n e).2 =
      [Event.writeEv n e.file_buf (!s.writeFail n), Event.closeEv e.fd] := by
  unfold destructEntry
  simp [h0, hd, flushWrite_snd]

theorem destructEntry_evs_clean (s : Sys) (n : String) (e : CacheEntry)
    (h0 : e.pin_count = 0) (hd : e.dirty = false) :
    (destructEntry s n e).2 = [Event.closeEv e.fd] := by
  unfold destructEntry
  simp [h0, hd]

theorem destructEntry_fst_writeFail (s : Sys) (n : String) (e : CacheEntry) :
    (destructEntry s n e).1.writeFail = s.writeFail := by
  unfold destructEntry
  by_cases h0 : e.pin_count = 0
  · by_cases hd : e.dirty <;> simp [h0, hd, flushWrite_fst_writeFail]
  · simp [h0]

/-- The ascending-key invariant of the `std::map` holding the cache. -/
def sortedKeys (t : CacheTable) : Prop :=
  t.Pairwise fun a b => a.1 < b.1

theorem evict_go_sublist (num : Int) :
    ∀ (t : CacheTable) (s : Sys) (acc : Int), (evict_go num s acc t).t.Sublist t := by
  intro t
  induction t with
  | nil => intro s acc; simp [evict_go]
  | cons hd rest ih =>
    intro s acc
    obtain ⟨name, e⟩ := hd
    simp only [evict_go]
    by_cases hp : e.pin_count = 0
    · rw [if_pos hp]
      by_cases hn : acc + 1 = num
      · rw [if_pos hn]
        exact List.sublist_cons_self _ _
      · rw [if_neg hn]
        exact (ih _ _).trans (List.sublist_cons_self _ _)
    · rw [if_neg hp]
      exact List.Sublist.cons₂ _ (ih _ _)

theorem evict_go_count_le (num : Int) :
    ∀ (t : CacheTable) (s : Sys) (acc : Int), acc < num → (evict_go num s acc t).count ≤ num := by
  intro t
  induction t with
  | nil =>
    intro s acc h
    simpa [evict_go] using h.le
  | cons hd rest ih =>
    intro s acc h
    obtain ⟨name, e⟩ := hd
    simp only [evict_go]
    by_cases hp : e.pin_count = 0
    · rw [if_pos hp]
      by_cases hn : acc + 1 = num
      · rw [if_pos hn]
        show acc + 1 ≤ num
        omega
      · rw [if_neg hn]
        exact ih _ _ (by omega)
    · rw [if_neg hp]
      exact ih _ _ h

theorem evict_go_pinned_mem (num : Int) (k : String) (e : CacheEntry) (hpin : e.pin_count ≠ 0) :
    ∀ (t : CacheTable) (s : Sys) (acc : Int), (k, e) ∈ t → (k, e) ∈ (evict_go num s acc t).t := by
  intro t
  induction t with
  | nil =>
    intro s acc h
    simp at h
  | cons hd rest ih =>
    intro s acc hmem
    obtain ⟨name, x⟩ := hd
    rcases List.mem_cons.mp hmem with heq | hrest
    · obtain ⟨h1, h2⟩ := Prod.mk.injEq .. ▸ heq
      subst h1
      subst h2
      simp only [evict_go]
      rw [if_neg hpin]
      exact List.mem_cons_self _ _
    · simp only [evict_go]
      by_cases hp : x.pin_count = 0
      · rw [if_pos hp]
        by_cases hn : acc + 1 = num
        · rw [if_pos hn]
          exact hrest
        · rw [if_neg hn]
          exact ih _ _ hrest
      · rw [if_neg hp]
        exact List.mem_cons_of_mem _ (ih _ _ hrest)

/-- C1: an eviction step removes only entries whose pin count is zero — any
pinned entry survives in place — and the number of evicted entries never
exceeds the requested number (the request is at least 1 at the only call
site, `evict_cache_entries(files_not_pinned.size())` with a non-empty
set). -/
theorem evict_respects_pins_and_bound (s : Sys) (num : Int) (t : CacheTable) (h : 1 ≤ num) :
    (∀ k e, (k, e) ∈ t → e.pin_count ≠ 0 → (k, e) ∈ (evict_cache_entries s num t).t) ∧
    (evict_cache_entries s num t).count ≤ num := by
  constructor
  · intro k e hm hp
    exact evict_go_pinned_mem num k e hp t s 0 hm
  · exact evict_go_count_le num t s 0 (by omega)

/-- Witness for C1 at a concrete input. -/
theorem evict_respects_pins_and_bound_witness :
    (1 : Int) ≤ 1 ∧
    ((∀ k e, (k, e) ∈ ([(fA, entryC)] : CacheTable) → e.pin_count ≠ 0 →
        (k, e) ∈ (evict_cache_entries sysNoFail 1 [(fA, entryC)]).t) ∧
      (evict_cache_entries sysNoFail 1 [(fA, entryC)]).count ≤ 1) :=
  ⟨by decide, evict_respects_pins_and_bound sysNoFail 1 [(fA, entryC)] (by decide)⟩

/-! ## The per-victim I/O segment of the eviction loop -/

theorem evictSeg_evs_dirty (s : Sys) (name : String) (e : CacheEntry)
    (hp : e.pin_count = 0) (hd : e.dirty = true) :
    (evictSeg s name e).2 =
      [Event.writeEv name e.file_buf (!s.writeFail name),
        Event.writeEv name e.file_buf (!s.writeFail name), Event.closeEv e.fd] := by
  unfold evictSeg
  simp [hd, flushWrite_snd, destructEntry_evs_dirty _ _ _ hp hd, flushWrite_fst_writeFail]

theorem evictSeg_evs_clean (s : Sys) (name : String) (e : CacheEntry)
    (hp : e.pin_count = 0) (hd : e.dirty = false) :
    (evictSeg s name e).2 = [Event.closeEv e.fd] := by
  unfold evictSeg
  simp [hd, destructEntry_evs_clean _ _ _ hp hd]

theorem evictSeg_fst_writeFail (s : Sys) (name : String) (e : CacheEntry) :
    (evictSeg s name e).1.writeFail = s.writeFail := by
  unfold evictSeg
  by_cases hd : e.dirty <;>
    simp [hd, destructEntry_fst_writeFail, flushWrite_fst_writeFail]

theorem evictSeg_write_name (s : Sys) (name : String) (e : CacheEntry)
    (n : String) (b : List Nat) (ok : Bool) (hp : e.pin_count = 0)
    (h : Event.writeEv n b ok ∈ (evictSeg s name e).2) : n = name := by
  by_cases hd : e.dirty
  · rw [evictSeg_evs_dirty s name e hp hd] at h
    simp at h
    tauto
  · have hd2 : e.dirty = false := by
      revert hd
      cases e.dirty <;> simp
    rw [evictSeg_evs_clean s name e hp hd2] at h
    simp at h

/-! ## Write events of the eviction loop always belong to erased entries -/

theorem evict_go_write_name_mem (num : Int) (n : String) (b : List Nat) (ok : Bool) :
    ∀ (t : CacheTable) (s : Sys) (acc : Int),
      Event.writeEv n b ok ∈ (evict_go num s acc t).evs → n ∈ tableKeys t := by
  intro t
  induction t with
  | nil =>
    intro s acc h
    simp [evict_go] at h
  | cons hd rest ih =>
    intro s acc h
    obtain ⟨name, e⟩ := hd
    simp only [evict_go] at h
    by_cases hp : e.pin_count = 0
    · rw [if_pos hp] at h
      by_cases hn : acc + 1 = num
      · rw [if_pos hn] at h
        have h2 : Event.writeEv n b ok ∈ (evictSeg s name e).2 := h
        have := evictSeg_write_name s name e n b ok hp h2
        simp [tableKeys, this]
      · rw [if_neg hn] at h
        have h2 : Event.writeEv n b ok ∈
            (evictSeg s name e).2 ++ (evict_go num (evictSeg s name e).1 (acc + 1) rest).evs := h
        rcases List.mem_append.mp h2 with h3 | h3
        · have := evictSeg_write_name s name e n b ok hp h3
          simp [tableKeys, this]
        · have := ih _ _ h3
          simp only [tableKeys, List.map_cons]
          exact List.mem_cons_of_mem _ this
    · rw [if_neg hp] at h
      have h2 : Event.writeEv n b ok ∈ (evict_go num s acc rest).evs := h
      have := ih _ _ h2
      simp only [tableKeys, List.map_cons]
      exact List.mem_cons_of_mem _ this

theorem evict_go_write_removed (num : Int) (n : String) (b : List Nat) (ok : Bool) :
    ∀ (t : CacheTable) (s : Sys) (acc : Int), sortedKeys t →
      Event.writeEv n b ok ∈ (evict_go num s acc t).evs →
      n ∉ tableKeys (evict_go num s acc t).t := by
  intro t
  induction t with
  | nil =>
    intro s acc _ h
    simp [evict_go] at h
  | cons hd rest ih =>
    intro s acc hsort h
    obtain ⟨name, e⟩ := hd
    have hlt : ∀ y ∈ rest, name < y.1 := (List.pairwise_cons.mp hsort).1
    have hrest : sortedKeys rest := (List.pairwise_cons.mp hsort).2
    simp only [evict_go] at h ⊢
    by_cases hp : e.pin_count = 0
    · rw [if_pos hp] at h ⊢
      by_cases hn : acc + 1 = num
      · rw [if_pos hn] at h ⊢
        have h2 : Event.writeEv n b ok ∈ (evictSeg s name e).2 := h
        have hname := evictSeg_write_name s name e n b ok hp h2
        subst hname
        show n ∉ tableKeys rest
        intro hmm
        obtain ⟨y, hy, hfy⟩ := List.mem_map.mp hmm
        exact absurd (hlt y hy) (by rw [hfy]; exact lt_irrefl n)
      · rw [if_neg hn] at h ⊢
        have h2 : Event.writeEv n b ok ∈
            (evictSeg s name e).2 ++ (evict_go num (evictSeg s name e).1 (acc + 1) rest).evs := h
        show n ∉ tableKeys (evict_go num (evictSeg s name e).1 (acc + 1) rest).t
        rcases List.mem_append.mp h2 with h3 | h3
        · have hname := evictSeg_write_name s name e n b ok hp h3
          subst hname
          intro hmm
          have hsub : (evict_go num (evictSeg s n e).1 (acc + 1) rest).t.Sublist rest :=
            evict_go_sublist num rest _ _
          have hmm2 : n ∈ tableKeys rest :=
            (hsub.map Prod.fst).subset hmm
          obtain ⟨y, hy, hfy⟩ := List.mem_map.mp hmm2
          exact absurd (hlt y hy) (by rw [hfy]; exact lt_irrefl n)
        · exact ih _ _ hrest h3
    · rw [if_neg hp] at h ⊢
      have h2 : Event.writeEv n b ok ∈ (evict_go num s acc rest).evs := h
      have hne : n ≠ name := by
        have hmemk := evict_go_write_name_mem num n b ok rest s acc h2
        obtain ⟨y, hy, hfy⟩ := List.mem_map.mp hmemk
        intro hcontra
        have := hlt y hy
        rw [hfy, hcontra] at this
        exact lt_irrefl name this
      show n ∉ tableKeys ((name, e) :: (evict_go num s acc rest).t)
      simp only [tableKeys, List.map_cons, List.mem_cons]
      rintro (h4 | h4)
      · exact hne h4
      · exact ih _ _ hrest h2 h4

/-- C9: whenever the eviction loop's flush of a dirty victim fails (a write
event with `ok = false` appears in the trace), the entry is nonetheless
erased: its name is absent from the resulting cache table, so eviction
reclaims the slot regardless of the flush outcome (the failure itself being
reported only by logging). -/
theorem evict_removes_entry_despite_write_failure (s : Sys) (num : Int) (t : CacheTable)
    (n : String) (b : List Nat) (hsort : sortedKeys t)
    (hw : Event.writeEv n b false ∈ (evict_cache_entries s num t).evs) :
    n ∉ tableKeys (evict_cache_entries s num t).t :=
  evict_go_write_removed num n b false t s 0 hsort hw

/-- A dirty, unpinned entry used by the eviction witnesses. -/
def entryD : CacheEntry := CacheEntry.mk [1, 2, 3] 0 true 5

/-- A one-entry table holding the dirty unpinned `entryD` under `fD`. -/
def tD : CacheTable := [(fD, entryD)]

/-- Witness for C9 at a concrete input with an injected write failure. -/
theorem evict_removes_entry_despite_write_failure_witness :
    sortedKeys tD ∧
    Event.writeEv fD [1, 2, 3] false ∈ (evict_cache_entries sysWriteFailD 1 tD).evs ∧
    fD ∉ tableKeys (evict_cache_entries sysWriteFailD 1 tD).t :=
  ⟨by simp [sortedKeys, tD], by decide,
    evict_removes_entry_despite_write_failure sysWriteFailD 1 tD fD [1, 2, 3]
      (by simp [sortedKeys, tD]) (by decide)⟩

/-! ## C10: the double write of an evicted dirty entry -/

/-- Recognises a write event against the file backing `n`. -/
def isWriteFor (n : String) : Event → Bool
  | Event.writeEv m _ _ => decide (m = n)
  | Event.closeEv _ => false

theorem evictSeg_filter_self (s : Sys) (name : String) (e : CacheEntry)
    (hp : e.pin_count = 0) (hd : e.dirty = true) :
    (evictSeg s name e).2.filter (isWriteFor name) =
      List.replicate 2 (Event.writeEv name e.file_buf (!s.writeFail name)) := by
  rw [evictSeg_evs_dirty s name e hp hd]
  simp [isWriteFor, List.replicate]

theorem evictSeg_filter_other (s : Sys) (name : String) (e : CacheEntry) (n : String)
    (hp : e.pin_count = 0) (hne : n ≠ name) :
    (evictSeg s name e).2.filter (isWriteFor n) = [] := by
  have hne2 : ¬(name = n) := fun h => hne h.symm
  by_cases hd : e.dirty
  · rw [evictSeg_evs_dirty s name e hp hd]
    simp [isWriteFor, hne2]
  · have hd2 : e.dirty = false := by
      revert hd
      cases e.dirty <;> simp
    rw [evictSeg_evs_clean s name e hp hd2]
    simp [isWriteFor]

theorem evict_go_dirty_double (num : Int) (n : String) (e : CacheEntry)
    (hpin : e.pin_count = 0) (hdirty : e.dirty = true) :
    ∀ (t : CacheTable) (s : Sys) (acc : Int), sortedKeys t → (n, e) ∈ t →
      n ∉ tableKeys (evict_go num s acc t).t →
      (evict_go num s acc t).evs.filter (isWriteFor n) =
        List.replicate 2 (Event.writeEv n e.file_buf (!s.writeFail n)) ∧
      Event.closeEv e.fd ∈ (evict_go num s acc t).evs := by
  intro t
  induction t with
  | nil =>
    intro s acc _ hmem _
    simp at hmem
  | cons hd rest ih =>
    intro s acc hsort hmem hgone
    obtain ⟨name, x⟩ := hd
    have hlt : ∀ y ∈ rest, name < y.1 := (List.pairwise_cons.mp hsort).1
    have hrest : sortedKeys rest := (List.pairwise_cons.mp hsort).2
    rcases List.mem_cons.mp hmem with heq | hmem2
    · obtain ⟨h1, h2⟩ := Prod.mk.injEq .. ▸ heq
      subst h1
      subst h2
      simp only [evict_go] at hgone ⊢
      rw [if_pos hpin] at hgone ⊢
      by_cases hn2 : acc + 1 = num
      · rw [if_pos hn2]
        constructor
        · show (evictSeg s n e).2.filter (isWriteFor n) = _
          exact evictSeg_filter_self s n e hpin hdirty
        · show Event.closeEv e.fd ∈ (evictSeg s n e).2
          rw [evictSeg_evs_dirty s n e hpin hdirty]
          simp
      · rw [if_neg hn2]
        have hrec : (evict_go num (evictSeg s n e).1 (acc + 1) rest).evs.filter
            (isWriteFor n) = [] := by
          rw [List.filter_eq_nil_iff]
          intro ev hev
          cases ev with
          | writeEv m bb okk =>
            have hmk := evict_go_write_name_mem num m bb okk rest _ _ hev
            obtain ⟨y, hy, hfy⟩ := List.mem_map.mp hmk
            have hnm : n < m := by
              rw [← hfy]
              exact hlt y hy
            simp only [isWriteFor]
            intro hpred
            have : m = n := of_decide_eq_true hpred
            rw [this] at hnm
            exact lt_irrefl n hnm
          | closeEv fd =>
            simp [isWriteFor]
        constructor
        · show ((evictSeg s n e).2 ++
              (evict_go num (evictSeg s n e).1 (acc + 1) rest).evs).filter (isWriteFor n) = _
          rw [List.filter_append, evictSeg_filter_self s n e hpin hdirty, hrec,
            List.append_nil]
        · show Event.closeEv e.fd ∈ (evictSeg s n e).2 ++ _
          apply List.mem_append_left
          rw [evictSeg_evs_dirty s n e hpin hdirty]
          simp
    · have hne : n ≠ name := by
        intro hcontra
        have := hlt (n, e) hmem2
        rw [hcontra] at this
        exact lt_irrefl name this
      simp only [evict_go] at hgone ⊢
      by_cases hp0 : x.pin_count = 0
      · rw [if_pos hp0] at hgone ⊢
        by_cases hn2 : acc + 1 = num
        · rw [if_pos hn2] at hgone
          exfalso
          exact hgone (List.mem_map.mpr ⟨(n, e), hmem2, rfl⟩)
        · rw [if_neg hn2] at hgone ⊢
          have hih := ih (evictSeg s name x).1 (acc + 1) hrest hmem2 hgone
          constructor
          · show ((evictSeg s name x).2 ++
                (evict_go num (evictSeg s name x).1 (acc + 1) rest).evs).filter
                  (isWriteFor n) = _
            rw [List.filter_append, evictSeg_filter_other s name x n hp0 hne,
              List.nil_append, hih.1, evictSeg_fst_writeFail]
          · show Event.closeEv e.fd ∈ (evictSeg s name x).2 ++ _
            exact List.mem_append_right _ hih.2
      · rw [if_neg hp0] at hgone ⊢
        have hgone2 : n ∉ tableKeys (evict_go num s acc rest).t := by
          intro hmm
          exact hgone (List.mem_cons_of_mem _ hmm)
        have hih := ih s acc hrest hmem2 hgone2
        exact ⟨hih.1, hih.2⟩

/-- C10: a dirty entry with pin count zero that `evict_cache_entries`
removes has its full buffer written to storage exactly twice — once by the
eviction loop, which does not clear the dirty flag, and once more by the
`~CacheEntry` destructor run by the map erase, which still sees
`dirty_ == true` and `pin_count_ == 0` — after which the destructor closes
the file descriptor. -/
theorem evicted_dirty_entry_written_twice (s : Sys) (num : Int) (t : CacheTable)
    (n : String) (e : CacheEntry) (hsort : sortedKeys t) (hmem : (n, e) ∈ t)
    (hpin : e.pin_count = 0) (hdirty : e.dirty = true)
    (hgone : n ∉ tableKeys (evict_cache_entries s num t).t) :
    (evict_cache_entries s num t).evs.filter (isWriteFor n) =
      List.replicate 2 (Event.writeEv n e.file_buf (!s.writeFail n)) ∧
    Event.closeEv e.fd ∈ (evict_cache_entries s num t).evs :=
  evict_go_dirty_double num n e hpin hdirty t s 0 hsort hmem hgone

/-- Witness for C10 at a concrete input. -/
theorem evicted_dirty_entry_written_twice_witness :
    sortedKeys tD ∧ (fD, entryD) ∈ tD ∧ entryD.pin_count = 0 ∧ entryD.dirty = true ∧
    fD ∉ tableKeys (evict_cache_entries sysNoFail 1 tD).t ∧
    ((evict_cache_entries sysNoFail 1 tD).evs.filter (isWriteFor fD) =
        List.replicate 2 (Event.writeEv fD entryD.file_buf (!sysNoFail.writeFail fD)) ∧
      Event.closeEv entryD.fd ∈ (evict_cache_entries sysNoFail 1 tD).evs) :=
  ⟨by simp [sortedKeys, tD], by decide, by decide, by decide, by decide,
    evicted_dirty_entry_written_twice sysNoFail 1 tD fD entryD (by simp [sortedKeys, tD])
      (by decide) (by decide) (by decide) (by decide)⟩

/-! ## C2: the capacity invariant -/

theorem add_cache_entry_length (s : Sys) (t : CacheTable) (name : String) :
    (add_cache_entry s t name).t.length ≤ t.length + 1 := by
  unfold add_cache_entry
  by_cases ho : s.openFail name
  · simp [ho]
  · by_cases hr : s.readFail name
    · simp [ho, hr]
    · simp only [ho, hr, if_false, Bool.false_eq_true]
      exact tableInsert_length_le _ _ t

theorem fill_go_length :
    ∀ (fnp : List String) (s : Sys) (t : CacheTable) (empty : Int),
      (fill_go s t empty fnp).t.length ≤ t.length + empty.toNat
  | [], s, t, empty => by simp [fill_go]
  | name :: rest, s, t, empty => by
    simp only [fill_go]
    by_cases h : 0 < empty
    · rw [if_pos h]
      have h1 := fill_go_length rest (add_cache_entry s t name).s
        (add_cache_entry s t name).t (empty - 1)
      have h2 := add_cache_entry_length s t name
      omega
    · rw [if_neg h]
      simp

theorem fill_up_cache_bound (s : Sys) (max : Int) (t : CacheTable) (fnp : List String)
    (h : (t.length : Int) ≤ max) :
    ((fill_up_cache s max t fnp).t.length : Int) ≤ max := by
  unfold fill_up_cache
  have h1 := fill_go_length fnp s t (max - (t.length : Int))
  omega

theorem evict_go_length (num : Int) (t : CacheTable) (s : Sys) (acc : Int) :
    (evict_go num s acc t).t.length ≤ t.length :=
  (evict_go_sublist num t s acc).length_le

theorem unpin_go_length :
    ∀ (vec : List String) (t : CacheTable) (flag : Bool),
      (unpin_go t flag vec).t.length = t.length
  | [], t, flag => rfl
  | name :: rest, t, flag => by
    simp only [unpin_go]
    cases hfind : tableFind name t with
    | none => exact unpin_go_length rest t flag
    | some e =>
      show (unpin_go (tableUpdate name (fun x => { x with pin_count := pinDec x.pin_count }) t)
          (flag || decide (pinDec e.pin_count = 0)) rest).t.length = t.length
      rw [unpin_go_length rest _ _, tableUpdate_length]

theorem fastPath_length :
    ∀ (vec : List String) (t : CacheTable) (fnp : List String),
      (fastPath t fnp vec).t.length = t.length
  | [], t, fnp => rfl
  | name :: rest, t, fnp => by
    simp only [fastPath]
    cases hfind : tableFind name t with
    | none => exact fastPath_length rest t _
    | some e =>
      show (fastPath (tableUpdate name (fun x => { x with pin_count := pinInc x.pin_count }) t)
          fnp rest).t.length = t.length
      rw [fastPath_length rest _ _, tableUpdate_length]

theorem claim_go_length :
    ∀ (fnp : List String) (t : CacheTable), (claim_go t fnp).t.length = t.length
  | [], t => rfl
  | name :: rest, t => by
    simp only [claim_go]
    cases hfind : tableFind name t with
    | none => exact claim_go_length rest t
    | some e =>
      show (claim_go (tableUpdate name (fun x => { x with pin_count := pinInc x.pin_count }) t)
          rest).t.length = t.length
      rw [claim_go_length rest _, tableUpdate_length]

theorem mutableFileData_length (t : CacheTable) (name : String) :
    (MutableFileData t name).t.length = t.length := by
  unfold MutableFileData
  cases hfind : tableFind name t with
  | none => rfl
  | some e => exact tableUpdate_length _ _ _

theorem pinRounds_bound (max : Int) :
    ∀ (fuel : Nat) (s : Sys) (t : CacheTable) (fnp : List String),
      (t.length : Int) ≤ max → ((pinRounds max fuel s t fnp).2.1.length : Int) ≤ max
  | 0, s, t, fnp => fun h => h
  | fuel + 1, s, t, fnp => by
    intro h
    simp only [pinRounds]
    by_cases h1 : fnp.isEmpty
    · rw [if_pos h1]
      exact h
    · rw [if_neg h1]
      by_cases h2 : !evictableB t
      · rw [if_pos h2]
        exact h
      · rw [if_neg h2]
        by_cases h3 : (claim_go t fnp).fnp.isEmpty
        · rw [if_pos h3]
          show ((claim_go t fnp).t.length : Int) ≤ max
          rw [claim_go_length fnp t]
          exact h
        · rw [if_neg h3]
          apply pinRounds_bound max fuel
          apply fill_up_cache_bound
          have e1 : (evict_cache_entries s ((claim_go t fnp).fnp.length : Int)
              (claim_go t fnp).t).t.length ≤ (claim_go t fnp).t.length :=
            evict_go_length _ _ _ _
          have e2 : (claim_go t fnp).t.length = t.length := claim_go_length fnp t
          omega

theorem pinFiles_length_bound (fuel : Nat) (max : Int) (s : Sys) (t : CacheTable)
    (vec : List String) (h : (t.length : Int) ≤ max) :
    ((PinFiles fuel max s t vec).t.length : Int) ≤ max := by
  simp only [PinFiles]
  by_cases hg : toSizeT max < vec.length
  · rw [if_pos hg]
    exact h
  · rw [if_neg hg]
    by_cases hf : (fill_up_cache s max (fastPath t [] vec).t (fastPath t [] vec).fnp).fnp.isEmpty
    · rw [if_pos hf]
      exact fill_up_cache_bound _ _ _ _ (by rw [fastPath_length vec t []]; exact h)
    · rw [if_neg hf]
      exact pinRounds_bound max fuel _ _ _
        (fill_up_cache_bound _ _ _ _ (by rw [fastPath_length vec t []]; exact h))

theorem stepOp_bound (max : Int) (st : Sys × CacheTable) (op : Op)
    (h : (st.2.length : Int) ≤ max) :
    ((stepOp max st op).2.length : Int) ≤ max := by
  cases op with
  | pin fuel names => exact pinFiles_length_bound fuel max st.1 st.2 names h
  | unpin names =>
    show (((UnpinFiles st.2 names).t.length : Int)) ≤ max
    rw [show (UnpinFiles st.2 names).t.length = st.2.length from unpin_go_length names st.2 false]
    exact h
  | fileData name => exact h
  | mutableFileData name =>
    show (((MutableFileData st.2 name).t.length : Int)) ≤ max
    rw [mutableFileData_length st.2 name]
    exact h

theorem runOps_bound (max : Int) :
    ∀ (ops : List Op) (st : Sys × CacheTable), (st.2.length : Int) ≤ max →
      ((ops.foldl (stepOp max) st).2.length : Int) ≤ max
  | [], st => fun h => h
  | op :: rest, st => fun h => runOps_bound max rest _ (stepOp_bound max st op h)

/-- C2: starting from the empty cache, any sequence of PinFiles, UnpinFiles,
FileData and MutableFileData operations keeps the cache table within
`max_cache_entries_` at every lock-released point: the bound holds after
every prefix of operations (quantifying over all sequences covers every
between-operation point), and the states at which a blocked `PinFiles`
sits in `cv_.wait` — the states this model returns for an unfinished pin —
satisfy it as well, since every round of the eviction-wait loop preserves
it (`pinRounds_bound` holds for every fuel). -/
theorem table_size_bounded (max : Int) (h : 0 ≤ max) (s0 : Sys) (ops : List Op) :
    ((runOps max s0 ops).2.length : Int) ≤ max := by
  unfold runOps
  exact runOps_bound max ops (s0, []) (by simpa using h)

/-- Witness for C2 at a concrete input. -/
theorem table_size_bounded_witness :
    (0 : Int) ≤ 1 ∧
    ((runOps 1 sysNoFail [Op.pin 2 [fA], Op.pin 2 [fB]]).2.length : Int) ≤ 1 :=
  ⟨by decide, table_size_bounded 1 (by decide) sysNoFail [Op.pin 2 [fA], Op.pin 2 [fB]]⟩

/-! ## C7: UnpinFiles decrements and broadcasts -/

theorem pinDec_sub_one (p : Nat) (h1 : 1 ≤ p) (h2 : p < U32) : pinDec p = p - 1 := by
  unfold pinDec U32
  unfold U32 at h2
  omega

theorem unpin_go_find :
    ∀ (vec : List String) (t : CacheTable) (flag : Bool), noOverUnpinB t vec = true →
      ∀ (name : String) (e : CacheEntry), tableFind name t = some e →
        tableFind name (unpin_go t flag vec).t =
          some { e with pin_count := e.pin_count - vec.count name } := by
  intro vec
  induction vec with
  | nil =>
    intro t flag hpre name e hf
    simp only [unpin_go, List.count_nil, Nat.sub_zero]
    rw [hf]
  | cons n0 rest ih =>
    intro t flag hpre name e hf
    simp only [noOverUnpinB] at hpre
    simp only [unpin_go]
    cases hfind : tableFind n0 t with
    | none =>
      simp only [hfind] at hpre ⊢
      have hne : name ≠ n0 := fun hc => by
        rw [hc, hfind] at hf
        exact Option.noConfusion hf
      rw [List.count_cons_of_ne hne]
      exact ih t flag hpre name e hf
    | some e0 =>
      simp only [hfind] at hpre ⊢
      rw [Bool.and_eq_true, Bool.and_eq_true] at hpre
      obtain ⟨⟨hp1, hp2⟩, hpre2⟩ := hpre
      have hp1 := of_decide_eq_true hp1
      have hp2 := of_decide_eq_true hp2
      have hdec : pinDec e0.pin_count = e0.pin_count - 1 := pinDec_sub_one _ hp1 hp2
      by_cases hname : name = n0
      · subst hname
        have he : e = e0 := by
          have h3 := hf.symm.trans hfind
          injection h3
        subst he
        have hft1 : tableFind name
            (tableUpdate name (fun x => { x with pin_count := pinDec x.pin_count }) t) =
            some { e with pin_count := e.pin_count - 1 } := by
          rw [find_update_self, hfind]
          simp [hdec]
        rw [ih _ _ hpre2 name _ hft1, List.count_cons_self]
        have harith : e.pin_count - 1 - rest.count name = e.pin_count - (rest.count name + 1) := by
          omega
        show some { e with pin_count := e.pin_count - 1 - rest.count name } = _
        rw [harith]
      · have hft1 : tableFind name
            (tableUpdate n0 (fun x => { x with pin_count := pinDec x.pin_count }) t) =
            some e := by
          rw [find_update_ne _ _ _ hname]
          exact hf
        rw [ih _ _ hpre2 name e hft1, List.count_cons_of_ne hname]

theorem noOverUnpin_count_zero :
    ∀ (vec : List String) (t : CacheTable), noOverUnpinB t vec = true →
      ∀ (n : String) (e : CacheEntry), tableFind n t = some e → e.pin_count = 0 →
        vec.count n = 0 := by
  intro vec
  induction vec with
  | nil =>
    intro t _ n e _ _
    simp
  | cons m rest ih =>
    intro t hpre n e hf hp0
    simp only [noOverUnpinB] at hpre
    cases hfind : tableFind m t with
    | none =>
      simp only [hfind] at hpre
      have hne : n ≠ m := fun hc => by
        rw [hc, hfind] at hf
        exact Option.noConfusion hf
      rw [List.count_cons_of_ne hne]
      exact ih t hpre n e hf hp0
    | some em =>
      simp only [hfind] at hpre
      rw [Bool.and_eq_true, Bool.and_eq_true] at hpre
      obtain ⟨⟨hp1, _⟩, hpre2⟩ := hpre
      have hp1 := of_decide_eq_true hp1
      have hne : n ≠ m := by
        intro hc
        subst hc
        have h3 := hf.symm.trans hfind
        injection h3 with h4
        rw [← h4] at hp1
        omega
      rw [List.count_cons_of_ne hne]
      apply ih _ hpre2 n e _ hp0
      rw [find_update_ne _ _ _ hne]
      exact hf

theorem unpin_go_notify :
    ∀ (vec : List String) (t : CacheTable) (flag : Bool), noOverUnpinB t vec = true →
      ((unpin_go t flag vec).notify = true ↔
        flag = true ∨ ∃ name e, tableFind name t = some e ∧ 1 ≤ vec.count name ∧
          e.pin_count = vec.count name) := by
  intro vec
  induction vec with
  | nil =>
    intro t flag _
    simp [unpin_go]
  | cons n0 rest ih =>
    intro t flag hpre
    simp only [noOverUnpinB] at hpre
    simp only [unpin_go]
    cases hfind : tableFind n0 t with
    | none =>
      simp only [hfind] at hpre ⊢
      have hcnt : ∀ (name : String) (e : CacheEntry), tableFind name t = some e →
          (n0 :: rest).count name = rest.count name := by
        intro name e hf
        have hne : name ≠ n0 := fun hc => by
          rw [hc, hfind] at hf
          exact Option.noConfusion hf
        exact List.count_cons_of_ne hne rest
      rw [ih t flag hpre]
      constructor
      · rintro (h | ⟨name, e, hf, hc, hpc⟩)
        · exact Or.inl h
        · exact Or.inr ⟨name, e, hf, by rw [hcnt name e hf]; exact hc,
            by rw [hcnt name e hf]; exact hpc⟩
      · rintro (h | ⟨name, e, hf, hc, hpc⟩)
        · exact Or.inl h
        · rw [hcnt name e hf] at hc hpc
          exact Or.inr ⟨name, e, hf, hc, hpc⟩
    | some e0 =>
      simp only [hfind] at hpre ⊢
      rw [Bool.and_eq_true, Bool.and_eq_true] at hpre
      obtain ⟨⟨hp1, hp2⟩, hpre2⟩ := hpre
      have hp1 := of_decide_eq_true hp1
      have hp2 := of_decide_eq_true hp2
      have hdec : pinDec e0.pin_count = e0.pin_count - 1 := pinDec_sub_one _ hp1 hp2
      rw [ih _ _ hpre2]
      constructor
      · rintro (h | ⟨name, e1, hf1, hc1, hpc1⟩)
        · rw [Bool.or_eq_true] at h
          rcases h with h | h
          · exact Or.inl h
          · have hone : e0.pin_count = 1 := by
              have h2 := of_decide_eq_true h
              rw [hdec] at h2
              omega
            have hft1 : tableFind n0
                (tableUpdate n0 (fun x => { x with pin_count := pinDec x.pin_count }) t) =
                some { e0 with pin_count := e0.pin_count - 1 } := by
              rw [find_update_self, hfind]
              simp [hdec]
            have hcz : rest.count n0 = 0 :=
              noOverUnpin_count_zero rest _ hpre2 n0 _ hft1 (by simp [hone])
            refine Or.inr ⟨n0, e0, hfind, ?_, ?_⟩
            · rw [List.count_cons_self]
              omega
            · rw [List.count_cons_self, hcz, hone]
        · by_cases hname : name = n0
          · subst hname
            have he1 : e1 = { e0 with pin_count := e0.pin_count - 1 } := by
              rw [find_update_self, hfind] at hf1
              simp [hdec] at hf1
              rw [← hf1]
            have hpe1 : e1.pin_count = e0.pin_count - 1 := by rw [he1]
            refine Or.inr ⟨name, e0, hfind, ?_, ?_⟩
            · rw [List.count_cons_self]
              omega
            · rw [List.count_cons_self]
              omega
          · have hf : tableFind name t = some e1 := by
              rw [find_update_ne _ _ _ hname] at hf1
              exact hf1
            rw [← List.count_cons_of_ne hname rest] at hc1 hpc1
            exact Or.inr ⟨name, e1, hf, hc1, hpc1⟩
      · rintro (h | ⟨name, e, hf, hc, hpc⟩)
        · refine Or.inl ?_
          rw [Bool.or_eq_true]
          exact Or.inl h
        · by_cases hname : name = n0
          · subst hname
            have he : e = e0 := by
              have h3 := hf.symm.trans hfind
              injection h3
            subst he
            rw [List.count_cons_self] at hc hpc
            by_cases hzero : rest.count name = 0
            · refine Or.inl ?_
              rw [Bool.or_eq_true]
              refine Or.inr ?_
              rw [hdec]
              apply decide_eq_true
              omega
            · refine Or.inr ⟨name, { e with pin_count := e.pin_count - 1 }, ?_, ?_, ?_⟩
              · rw [find_update_self, hfind]
                simp [hdec]
              · omega
              · show e.pin_count - 1 = rest.count name
                omega
          · refine Or.inr ⟨name, e, ?_, ?_, ?_⟩
            · rw [find_update_ne _ _ _ hname]
              exact hf
            · rw [List.count_cons_of_ne hname rest] at hc
              exact hc
            · rw [List.count_cons_of_ne hname rest] at hpc
              exact hpc

/-- C7: under the no-over-unpin precondition (checked along the very fold
`UnpinFiles` performs), every resident name of the batch has its pin count
decremented once per occurrence, and the `cv_.notify_all()` broadcast is
issued after the batch if and only if some decrement brought an entry's pin
count to zero — equivalently, some resident batch name had exactly as many
outstanding pins as batch occurrences. -/
theorem unpin_decrements_and_broadcast_iff_zero (t : CacheTable) (vec : List String)
    (hpre : noOverUnpinB t vec = true) :
    (∀ name e, tableFind name t = some e →
      tableFind name (UnpinFiles t vec).t =
        some { e with pin_count := e.pin_count - vec.count name }) ∧
    ((UnpinFiles t vec).notify = true ↔
      ∃ name e, tableFind name t = some e ∧ 1 ≤ vec.count name ∧
        e.pin_count = vec.count name) := by
  constructor
  · intro name e hf
    exact unpin_go_find vec t false hpre name e hf
  · have h := unpin_go_notify vec t false hpre
    unfold UnpinFiles
    rw [h]
    simp

/-- A table with a single entry pinned once, for the C7 witness. -/
def tW : CacheTable := [(fA, CacheEntry.mk [] 1 false 1)]

/-- Witness for C7 at a concrete input. -/
theorem unpin_decrements_and_broadcast_iff_zero_witness :
    noOverUnpinB tW [fA] = true ∧
    ((∀ name e, tableFind name tW = some e →
        tableFind name (UnpinFiles tW [fA]).t =
          some { e with pin_count := e.pin_count - ([fA] : List String).count name }) ∧
      ((UnpinFiles tW [fA]).notify = true ↔
        ∃ name e, tableFind name tW = some e ∧ 1 ≤ ([fA] : List String).count name ∧
          e.pin_count = ([fA] : List String).count name)) :=
  ⟨by decide, unpin_decrements_and_broadcast_iff_zero tW [fA] (by decide)⟩

/-! ## C8: the oversized-batch guard of PinFiles -/

/-- C8: a `PinFiles` call with more names than `max_cache_entries_` throws
the `std::runtime_error` before touching any state: the cache table and the
storage state are returned exactly as they were, and nothing is retried.
The hypotheses pin down the `int` capacity as a non-negative 32-bit value so
that the `size_t` conversion in the guard compares it unchanged. -/
theorem pin_too_many_throws_unchanged (fuel : Nat) (max : Int) (s : Sys) (t : CacheTable)
    (vec : List String) (h0 : 0 ≤ max) (h1 : max < 2 ^ 31)
    (h2 : max < (vec.length : Int)) :
    PinFiles fuel max s t vec = ⟨true, s, t, []⟩ := by
  have hmod : max % (2 : Int) ^ 64 = max := by
    apply Int.emod_eq_of_lt h0
    have hlt : (2 : Int) ^ 31 < 2 ^ 64 := by norm_num
    omega
  have hguard : toSizeT max < vec.length := by
    unfold toSizeT
    rw [hmod]
    omega
  unfold PinFiles
  rw [if_pos hguard]

/-- Witness for C8 at a concrete input. -/
theorem pin_too_many_throws_unchanged_witness :
    (0 : Int) ≤ 1 ∧ (1 : Int) < 2 ^ 31 ∧ (1 : Int) < (([fA, fB] : List String).length : Int) ∧
    PinFiles 0 1 sysNoFail [] [fA, fB] = ⟨true, sysNoFail, [], []⟩ :=
  ⟨by decide, by decide, by decide,
    pin_too_many_throws_unchanged 0 1 sysNoFail [] [fA, fB] (by decide) (by decide) (by decide)⟩

end FileCache
